import Mathlib

/-!
Verification of the dependency-aware batch scheduler of the workflow-manager
repository: a shallow embedding of `build_execution_batches_fallback` and
`parse_execution_plan` (src/scripts/tasks.py, with identical copies in
src/SCRIPTS/tasks.py and src/SCRIPTS/test7.py), together with proofs and
refutations of the specified properties.
-/

/-- Task identifiers. The source accepts any YAML scalar as an id; the
spec says "integer or string", and we model them as naturals. Python
truthiness of an integer is `n ≠ 0`. -/
abbrev Ident := Nat

/-- One entry of a task's `requires_completion_of` list, classified the way
the source's eligibility filter classifies it
(`if isinstance(dep, dict) and dep.get("task_id")`): `malformed` covers an
entry that is not a mapping, or whose `task_id` key is missing or falsy;
`ref tid` covers a mapping with a truthy `task_id` equal to `tid`. -/
inductive DepEntry where
  | malformed : DepEntry
  | ref : Ident → DepEntry
deriving DecidableEq, Repr

/-- A task document, keeping exactly the fields the scheduler reads:
`id` models `task_doc.get("task", {}).get("id")` (`none` = key missing or
`None`), `deps` models
`task.get("dependencies", {}).get("requires_completion_of", [])`, and
`payload` stands for all the remaining document content (name, description,
...) that the scheduler carries through untouched. -/
structure TaskDoc where
  id : Option Ident
  deps : List DepEntry
  payload : Nat
deriving DecidableEq, Repr

/-- The ids of a list of task documents, in order. -/
def ids (l : List TaskDoc) : List (Option Ident) := l.map TaskDoc.id

/-- One conjunct of the eligibility check:
`dep.get("task_id") in scheduled` for a kept (well-formed) entry; a
malformed entry is filtered out of the `all(...)`, i.e. contributes `true`. -/
def depSatisfied (sched : List (Option Ident)) : DepEntry → Bool
  | DepEntry.malformed => true
  | DepEntry.ref tid => decide (some tid ∈ sched)

/-- The source's `can_run` computation: an empty dependency list is the
explicit `len(dependencies) == 0` special case, otherwise
`all(dep.get("task_id") in scheduled for dep in dependencies
     if isinstance(dep, dict) and dep.get("task_id"))`. -/
def canRun (sched : List (Option Ident)) (t : TaskDoc) : Bool :=
  if t.deps.length = 0 then true
  else t.deps.all (depSatisfied sched)

/-- One step of the inner `for task_doc in tasks:` scan. The accumulator is
`(current_batch, scheduled)`; note that the source mutates `scheduled`
inside the scan, so later tasks of the same pass observe earlier additions.
`scheduled` is a Python set; it is represented as a duplicate-free list
(an element is appended only under the `not in` guard), so that its length
is the set's cardinality. -/
def scanStep (acc : List TaskDoc × List (Option Ident)) (t : TaskDoc) :
    List TaskDoc × List (Option Ident) :=
  if t.id ∈ acc.2 then acc
  else if canRun acc.2 t then (acc.1 ++ [t], acc.2 ++ [t.id]) else acc

/-- One full pass of the inner scan over all tasks, starting from an empty
`current_batch` and the given `scheduled` set. -/
def scanPass (tasks : List TaskDoc) (sched : List (Option Ident)) :
    List TaskDoc × List (Option Ident) :=
  List.foldl scanStep ([], sched) tasks

/-- The `while len(scheduled) < len(tasks):` loop, with explicit fuel (the
loop provably needs at most `tasks.length + 1` iterations; see
`buildLoop_fuel_irrelevant`). The second component of the result records
whether the circular-dependency warning was printed. When a pass produces
an empty batch the source prints the warning, appends the still-unscheduled
tasks as one final batch when there are any, and breaks. -/
def buildLoop (tasks : List TaskDoc) :
    Nat → List (Option Ident) → List (List TaskDoc) × Bool
  | 0, _ => ([], false)
  | Nat.succ fuel, sched =>
    if sched.length < tasks.length then
      let p := scanPass tasks sched
      if p.1 = [] then
        let remaining := tasks.filter (fun t => decide (t.id ∉ p.2))
        (if remaining = [] then [] else [remaining], true)
      else
        let rest := buildLoop tasks fuel p.2
        (p.1 :: rest.1, rest.2)
    else ([], false)

/-- `build_execution_batches_fallback` together with the
circular-dependency-warning flag (src/scripts/tasks.py lines 526-585). -/
def build_execution_batches_fallbackW (tasks : List TaskDoc) :
    List (List TaskDoc) × Bool :=
  buildLoop tasks (tasks.length + 1) []

/-- `build_execution_batches_fallback` (src/scripts/tasks.py lines
526-585): the returned batch list. -/
def build_execution_batches_fallback (tasks : List TaskDoc) :
    List (List TaskDoc) :=
  (build_execution_batches_fallbackW tasks).1

/-- Python truthiness of an integer identifier. -/
def pyTruthy (n : Ident) : Bool := decide (n ≠ 0)

/-- One `{task_id: ..., task_name: ...}` reference inside a batch of the
execution plan; only `task_id` is consulted for batch membership
(`task_name` is used for debug printing alone), `none` models a missing
`task_id` key. -/
structure TaskRef where
  task_id : Option Ident
deriving DecidableEq, Repr

/-- One `batch_def` of `plan["execution_plan"]["batches"]`; only its
`tasks` list of references matters for the output (`batch_id` is used for
debug printing alone). -/
structure BatchDef where
  task_refs : List TaskRef
deriving DecidableEq, Repr

/-- The `task_by_id` dictionary of `parse_execution_plan`: a document is
inserted only when its id is truthy (`if task_id:`), and a later document
with the same id overwrites an earlier one, so lookup returns the last
matching document. -/
def taskById (tasks : List TaskDoc) (tid : Ident) : Option TaskDoc :=
  (tasks.filter (fun t => pyTruthy tid && decide (t.id = some tid))).getLast?

/-- Resolution of one plan reference: `if task_id in task_by_id:` appends
the looked-up document, otherwise the source prints a warning and drops the
reference. -/
def resolveRef (tasks : List TaskDoc) (r : TaskRef) : Option TaskDoc :=
  match r.task_id with
  | none => none
  | some tid => taskById tasks tid

/-- `parse_execution_plan` (src/scripts/tasks.py lines 470-518), given the
already-deserialized `plan["execution_plan"]["batches"]` structure: each
plan batch is resolved against the task list, and a batch is appended only
when at least one of its references resolved (`if batch_tasks:`). The
surrounding `try`/`except` returns `build_execution_batches_fallback tasks`
instead when deserialization throws; that path is not modelled here. -/
def parse_execution_plan (plan_batches : List BatchDef)
    (tasks : List TaskDoc) : List (List TaskDoc) :=
  (plan_batches.map (fun bd => bd.task_refs.filterMap (resolveRef tasks))).filter
    (fun b => decide (b ≠ []))

/-- Well-formed input per the spec's preconditions (§4.1, §7): identifiers
are unique and present. -/
def goodIds (tasks : List TaskDoc) : Prop :=
  (ids tasks).Nodup ∧ ∀ t ∈ tasks, t.id ≠ none

instance (tasks : List TaskDoc) : Decidable (goodIds tasks) := by
  unfold goodIds; infer_instance

/-- The scheduling-relevant skeleton of a document: the scheduler's control
flow depends on a document only through its id and dependency list. -/
def skel (t : TaskDoc) : Option Ident × List DepEntry := (t.id, t.deps)

/-- Example: task A with no dependencies (spec §8 scenarios; id 1 = A,
2 = B, 3 = C, 4 = D). -/
def tA : TaskDoc := ⟨some 1, [], 0⟩

/-- Example: task B depending on A. -/
def tB : TaskDoc := ⟨some 2, [DepEntry.ref 1], 0⟩

/-- Example: task C depending on A. -/
def tC : TaskDoc := ⟨some 3, [DepEntry.ref 1], 0⟩

/-- Example: task D depending on B and C. -/
def tD : TaskDoc := ⟨some 4, [DepEntry.ref 2, DepEntry.ref 3], 0⟩

/-- The diamond scenario {A: [], B: [A], C: [A], D: [B, C]} in its natural
input order. -/
def exDiamond : List TaskDoc := [tA, tB, tC, tD]

/-- Example: task B whose sole dependency (id 99 = Z) is absent from the
input set. -/
def tBd : TaskDoc := ⟨some 2, [DepEntry.ref 99], 0⟩

/-- The dangling-reference scenario {A: [], B: [Z]} with Z ∉ tasks. -/
def exDangling : List TaskDoc := [tA, tBd]

/-- Example: task A of the two-cycle. -/
def tAc : TaskDoc := ⟨some 1, [DepEntry.ref 2], 0⟩

/-- Example: task B of the two-cycle. -/
def tBc : TaskDoc := ⟨some 2, [DepEntry.ref 1], 0⟩

/-- The cycle scenario {A: [B], B: [A]}. -/
def exCycle : List TaskDoc := [tAc, tBc]

/-- Example: a task with a non-empty dependency list consisting of one
malformed entry only. -/
def tM : TaskDoc := ⟨some 5, [DepEntry.malformed], 0⟩

/-- Input containing the malformed-dependency task and an ordinary one. -/
def exMalformed : List TaskDoc := [tM, tA]

/-- The diamond scenario again, with different payloads (task names,
descriptions, ...) but identical ids and dependency lists. -/
def exDiamondP : List TaskDoc :=
  [⟨some 1, [], 7⟩, ⟨some 2, [DepEntry.ref 1], 8⟩,
   ⟨some 3, [DepEntry.ref 1], 9⟩,
   ⟨some 4, [DepEntry.ref 2, DepEntry.ref 3], 10⟩]

/-- An execution-plan structure used to exercise `parse_execution_plan`:
the first plan batch references task 1 (known) and task 5 (unknown in
`exDangling`), the second batch references only a missing `task_id`. -/
def pbsEx : List BatchDef := [⟨[⟨some 1⟩, ⟨some 5⟩]⟩, ⟨[⟨none⟩]⟩]

/-! Basic lemmas about `ids` and `canRun`. -/

theorem ids_nil : ids [] = [] := rfl

theorem ids_cons (t : TaskDoc) (l : List TaskDoc) :
    ids (t :: l) = t.id :: ids l := rfl

theorem ids_append (l₁ l₂ : List TaskDoc) :
    ids (l₁ ++ l₂) = ids l₁ ++ ids l₂ := by
  simp [ids]

theorem mem_ids_iff (x : Option Ident) (l : List TaskDoc) :
    x ∈ ids l ↔ ∃ u ∈ l, u.id = x := by
  simp [ids, eq_comm]

theorem length_ids (l : List TaskDoc) : (ids l).length = l.length := by
  simp [ids]

/-- Eligibility is monotone in the scheduled set: later tasks of the same
pass, which observe a larger `scheduled`, remain eligible. -/
theorem canRun_mono (s e : List (Option Ident)) (t : TaskDoc)
    (h : canRun s t = true) : canRun (s ++ e) t = true := by
  unfold canRun at h ⊢
  by_cases hd : t.deps.length = 0
  · simp [hd]
  · simp only [hd, if_false, List.all_eq_true] at h ⊢
    intro d hdm
    have := h d hdm
    cases d with
    | malformed => rfl
    | ref tid =>
      simp only [depSatisfied, decide_eq_true_eq, List.mem_append] at this ⊢
      exact Or.inl this

/-- If every well-formed dependency entry of `t` points into `s`, then `t`
is eligible with respect to `s`. -/
theorem canRun_of_refs (s : List (Option Ident)) (t : TaskDoc)
    (h : ∀ tid, DepEntry.ref tid ∈ t.deps → some tid ∈ s) :
    canRun s t = true := by
  unfold canRun
  by_cases hd : t.deps.length = 0
  · simp [hd]
  · simp only [hd, if_false, List.all_eq_true]
    intro d hdm
    cases d with
    | malformed => rfl
    | ref tid => simpa [depSatisfied] using h tid hdm

/-- Eligibility depends on a document only through its dependency list. -/
theorem canRun_congr (s : List (Option Ident)) (t u : TaskDoc)
    (h : t.deps = u.deps) : canRun s t = canRun s u := by
  unfold canRun
  rw [h]

/-- Unfolding lemma: the scan step skips a task whose id is scheduled. -/
theorem scanStep_skip (b : List TaskDoc) (s : List (Option Ident))
    (t : TaskDoc) (h : t.id ∈ s) : scanStep (b, s) t = (b, s) := by
  simp [scanStep, h]

/-- Unfolding lemma: the scan step appends an unscheduled eligible task to
the current batch and its id to the scheduled set. -/
theorem scanStep_add (b : List TaskDoc) (s : List (Option Ident))
    (t : TaskDoc) (h1 : t.id ∉ s) (h2 : canRun s t = true) :
    scanStep (b, s) t = (b ++ [t], s ++ [t.id]) := by
  simp [scanStep, h1, h2]

/-- Unfolding lemma: the scan step leaves an unscheduled ineligible task
alone. -/
theorem scanStep_stuck (b : List TaskDoc) (s : List (Option Ident))
    (t : TaskDoc) (h1 : t.id ∉ s) (h2 : ¬ canRun s t = true) :
    scanStep (b, s) t = (b, s) := by
  simp [scanStep, h1, h2]

/-- Shape of one scan pass, relative to an arbitrary starting accumulator:
the batch grows by some `new` tasks drawn from the scanned list, the
scheduled set grows by exactly their ids, every added task was unscheduled
at the start of the pass, and duplicate-freeness of the scheduled set is
preserved. -/
theorem scan_spec (ts : List TaskDoc) (b : List TaskDoc)
    (s : List (Option Ident)) :
    ∃ new, List.foldl scanStep (b, s) ts = (b ++ new, s ++ ids new) ∧
      (∀ t ∈ new, t ∈ ts) ∧ (∀ t ∈ new, t.id ∉ s) ∧
      (s.Nodup → (s ++ ids new).Nodup) := by
  induction ts generalizing b s with
  | nil =>
    refine ⟨[], by simp [ids_nil], by simp, by simp, ?_⟩
    intro h; simpa [ids_nil] using h
  | cons t ts ih =>
    rw [List.foldl_cons]
    by_cases hmem : t.id ∈ s
    · rw [scanStep_skip b s t hmem]
      obtain ⟨new, heq, hsub, hfresh, hnd⟩ := ih b s
      exact ⟨new, heq, fun u hu => List.mem_cons_of_mem _ (hsub u hu),
        hfresh, hnd⟩
    · by_cases hrun : canRun s t = true
      · rw [scanStep_add b s t hmem hrun]
        obtain ⟨new, heq, hsub, hfresh, hnd⟩ := ih (b ++ [t]) (s ++ [t.id])
        refine ⟨t :: new, ?_, ?_, ?_, ?_⟩
        · rw [heq, ids_cons]
          simp
        · intro u hu
          rcases List.mem_cons.mp hu with h | h
          · rw [h]; exact List.mem_cons_self _ _
          · exact List.mem_cons_of_mem _ (hsub u h)
        · intro u hu
          rcases List.mem_cons.mp hu with h | h
          · rw [h]; exact hmem
          · intro hin
            exact hfresh u h (List.mem_append_left _ hin)
        · intro hs
          have hdisj : List.Disjoint s [t.id] := by
            intro a ha hb
            rw [List.mem_singleton] at hb
            exact hmem (hb ▸ ha)
          have hs' : (s ++ [t.id]).Nodup :=
            List.nodup_append.mpr ⟨hs, List.nodup_singleton _, hdisj⟩
          have := hnd hs'
          simpa [ids_cons, List.append_assoc] using this
      · rw [scanStep_stuck b s t hmem hrun]
        obtain ⟨new, heq, hsub, hfresh, hnd⟩ := ih b s
        exact ⟨new, heq, fun u hu => List.mem_cons_of_mem _ (hsub u hu),
          hfresh, hnd⟩

/-- The batch accumulator only grows during a pass. -/
theorem scan_batch_mono (ts : List TaskDoc) (b : List TaskDoc)
    (s : List (Option Ident)) (t : TaskDoc) (h : t ∈ b) :
    t ∈ (List.foldl scanStep (b, s) ts).1 := by
  obtain ⟨new, heq, -, -, -⟩ := scan_spec ts b s
  rw [heq]
  exact List.mem_append_left _ h

/-- Maximality of one pass: a task that is eligible with respect to the
starting scheduled set, is not yet scheduled, and is not preceded in the
scan order by another document carrying the same id, is put into the
current batch. -/
theorem scan_max (l1 l2 : List TaskDoc) (t : TaskDoc) (b : List TaskDoc)
    (s : List (Option Ident)) (hrun : canRun s t = true) (hns : t.id ∉ s)
    (hfrsh : ∀ u ∈ l1, u.id ≠ t.id) :
    t ∈ (List.foldl scanStep (b, s) (l1 ++ t :: l2)).1 := by
  induction l1 generalizing b s with
  | nil =>
    rw [List.nil_append, List.foldl_cons, scanStep_add b s t hns hrun]
    exact scan_batch_mono l2 _ _ t (List.mem_append_right _ (List.mem_singleton_self t))
  | cons u l1 ih =>
    rw [List.cons_append, List.foldl_cons]
    have hu : u.id ≠ t.id := hfrsh u (List.mem_cons_self u l1)
    have hfrsh' : ∀ v ∈ l1, v.id ≠ t.id := fun v hv =>
      hfrsh v (List.mem_cons_of_mem _ hv)
    by_cases hmem : u.id ∈ s
    · rw [scanStep_skip b s u hmem]
      exact ih b s hrun hns hfrsh'
    · by_cases hrunu : canRun s u = true
      · rw [scanStep_add b s u hmem hrunu]
        refine ih _ _ (canRun_mono s [u.id] t hrun) ?_ hfrsh'
        intro hin
        rcases List.mem_append.mp hin with h | h
        · exact hns h
        · exact hu ((List.mem_singleton.mp h).symm)
      · rw [scanStep_stuck b s u hmem hrunu]
        exact ih b s hrun hns hfrsh'

/-- Provenance of eligibility: every task of the produced batch either was
in the starting batch accumulator or was found eligible with respect to
some scheduled set drawn from the starting set plus ids of scanned tasks. -/
theorem scan_elig (ts : List TaskDoc) (b : List TaskDoc)
    (s : List (Option Ident)) (t : TaskDoc)
    (h : t ∈ (List.foldl scanStep (b, s) ts).1) :
    t ∈ b ∨ ∃ s2, (∀ x ∈ s2, x ∈ s ∨ ∃ u ∈ ts, x = u.id) ∧
      canRun s2 t = true := by
  induction ts generalizing b s with
  | nil => exact Or.inl h
  | cons v ts ih =>
    rw [List.foldl_cons] at h
    by_cases hmem : v.id ∈ s
    · rw [scanStep_skip b s v hmem] at h
      rcases ih b s h with h | ⟨s2, hs2, hrun⟩
      · exact Or.inl h
      · refine Or.inr ⟨s2, ?_, hrun⟩
        intro x hx
        rcases hs2 x hx with h | ⟨u, hu, he⟩
        · exact Or.inl h
        · exact Or.inr ⟨u, List.mem_cons_of_mem _ hu, he⟩
    · by_cases hrunv : canRun s v = true
      · rw [scanStep_add b s v hmem hrunv] at h
        rcases ih _ _ h with h | ⟨s2, hs2, hrun⟩
        · rcases List.mem_append.mp h with h | h
          · exact Or.inl h
          · refine Or.inr ⟨s, fun x hx => Or.inl hx, ?_⟩
            rw [List.mem_singleton.mp h]
            exact hrunv
        · refine Or.inr ⟨s2, ?_, hrun⟩
          intro x hx
          rcases hs2 x hx with h | ⟨u, hu, he⟩
          · rcases List.mem_append.mp h with h | h
            · exact Or.inl h
            · exact Or.inr ⟨v, List.mem_cons_self _ _, List.mem_singleton.mp h⟩
          · exact Or.inr ⟨u, List.mem_cons_of_mem _ hu, he⟩
      · rw [scanStep_stuck b s v hmem hrunv] at h
        rcases ih b s h with h | ⟨s2, hs2, hrun⟩
        · exact Or.inl h
        · refine Or.inr ⟨s2, ?_, hrun⟩
          intro x hx
          rcases hs2 x hx with h | ⟨u, hu, he⟩
          · exact Or.inl h
          · exact Or.inr ⟨u, List.mem_cons_of_mem _ hu, he⟩

/-- Unfolding lemma: with the scheduled set covering all tasks the loop
exits normally. -/
theorem buildLoop_done (tasks : List TaskDoc) (fuel : Nat)
    (sched : List (Option Ident)) (h : ¬ sched.length < tasks.length) :
    buildLoop tasks (fuel + 1) sched = ([], false) := by
  simp [buildLoop, h]

/-- Unfolding lemma: an empty pass triggers the circular-dependency
fallback, which dumps the unscheduled tasks (when any) and breaks. -/
theorem buildLoop_fallback (tasks : List TaskDoc) (fuel : Nat)
    (sched : List (Option Ident)) (h : sched.length < tasks.length)
    (he : (scanPass tasks sched).1 = []) :
    buildLoop tasks (fuel + 1) sched =
      (if tasks.filter (fun t => decide (t.id ∉ (scanPass tasks sched).2)) = []
       then []
       else [tasks.filter (fun t => decide (t.id ∉ (scanPass tasks sched).2))],
       true) := by
  simp [buildLoop, h, he]

/-- Unfolding lemma: a non-empty pass appends its batch and iterates. -/
theorem buildLoop_step (tasks : List TaskDoc) (fuel : Nat)
    (sched : List (Option Ident)) (h : sched.length < tasks.length)
    (hne : ¬ (scanPass tasks sched).1 = []) :
    buildLoop tasks (fuel + 1) sched =
      ((scanPass tasks sched).1 ::
         (buildLoop tasks fuel (scanPass tasks sched).2).1,
       (buildLoop tasks fuel (scanPass tasks sched).2).2) := by
  simp [buildLoop, h, hne]

/-- `scan_spec` specialized to a full pass. -/
theorem scanPass_spec (tasks : List TaskDoc) (sched : List (Option Ident)) :
    ∃ new, scanPass tasks sched = (new, sched ++ ids new) ∧
      (∀ t ∈ new, t ∈ tasks) ∧ (∀ t ∈ new, t.id ∉ sched) ∧
      (sched.Nodup → (sched ++ ids new).Nodup) := by
  obtain ⟨new, heq, hsub, hfresh, hnd⟩ := scan_spec tasks [] sched
  rw [List.nil_append] at heq
  exact ⟨new, heq, hsub, hfresh, hnd⟩

/-- Distinct ids make the id projection injective on the input list. -/
theorem id_inj (tasks : List TaskDoc) (h : (ids tasks).Nodup) :
    ∀ t ∈ tasks, ∀ u ∈ tasks, t.id = u.id → t = u := by
  intro t ht u hu he
  exact List.inj_on_of_nodup_map h ht hu he

/-- A duplicate-free partial placement missing some input task is strictly
smaller than the input. -/
theorem length_lt_of_missing (tasks P : List TaskDoc) (T : TaskDoc)
    (hP : ∀ p ∈ P, p ∈ tasks) (hnd : P.Nodup) (hT : T ∈ tasks)
    (hTP : T ∉ P) : P.length < tasks.length := by
  have hsub : (T :: P) ⊆ tasks := by
    intro x hx
    rcases List.mem_cons.mp hx with h | h
    · exact h ▸ hT
    · exact hP x h
  have hnd' : (T :: P).Nodup := List.nodup_cons.mpr ⟨hTP, hnd⟩
  have := (hnd'.subperm hsub).length_le
  simpa using this

/-- The tasks whose id is already placed are, up to order, exactly the
placed tasks. -/
theorem filter_scheduled_perm (tasks P : List TaskDoc)
    (htn : (ids tasks).Nodup) (hP : ∀ p ∈ P, p ∈ tasks)
    (hPnd : (ids P).Nodup) :
    (tasks.filter (fun t => decide (t.id ∈ ids P))).Perm P := by
  have htasks : tasks.Nodup := List.Nodup.of_map _ htn
  have hPn : P.Nodup := List.Nodup.of_map _ hPnd
  rw [List.perm_ext_iff_of_nodup (htasks.filter _) hPn]
  intro t
  rw [List.mem_filter]
  constructor
  · rintro ⟨ht, hid⟩
    rw [decide_eq_true_eq] at hid
    obtain ⟨p, hp, hpe⟩ := (mem_ids_iff _ _).mp hid
    have := id_inj tasks htn t ht p (hP p hp) hpe.symm
    exact this ▸ hp
  · intro ht
    refine ⟨hP t ht, ?_⟩
    rw [decide_eq_true_eq, mem_ids_iff]
    exact ⟨t, ht, rfl⟩

/-- A full pass of the loop invariant: starting from any faithfully placed
prefix `P`, the loop schedules, across its remaining batches, exactly the
tasks not yet placed — so placed plus produced is a permutation of the
input. -/
theorem loop_perm (tasks : List TaskDoc) (htn : (ids tasks).Nodup) :
    ∀ fuel (P : List TaskDoc), (∀ p ∈ P, p ∈ tasks) → (ids P).Nodup →
      tasks.length + 1 ≤ fuel + P.length →
      (P ++ (buildLoop tasks fuel (ids P)).1.flatten).Perm tasks := by
  intro fuel
  induction fuel with
  | zero =>
    intro P hsub hnd hfuel
    have hle : P.length ≤ tasks.length :=
      ((List.Nodup.of_map _ hnd).subperm hsub).length_le
    omega
  | succ fuel ih =>
    intro P hsub hnd hfuel
    by_cases hlt : (ids P).length < tasks.length
    · obtain ⟨new, hp, hnew_sub, hnew_fresh, hnew_nd⟩ :=
        scanPass_spec tasks (ids P)
      by_cases hempty : new = []
      · have he1 : (scanPass tasks (ids P)).1 = [] := by
          rw [hp, hempty]
        have he2 : (scanPass tasks (ids P)).2 = ids P := by
          rw [hp, hempty, ids_nil, List.append_nil]
        rw [buildLoop_fallback tasks fuel (ids P) hlt he1, he2]
        have hsplit :=
          List.filter_append_perm (fun t => decide (t.id ∈ ids P)) tasks
        have hremEq : tasks.filter (fun t => decide (t.id ∉ ids P)) =
            tasks.filter (fun t => !(decide (t.id ∈ ids P))) := by
          simp [decide_not]
        have hperm1 := filter_scheduled_perm tasks P htn hsub hnd
        by_cases hrem : tasks.filter (fun t => decide (t.id ∉ ids P)) = []
        · rw [if_pos hrem]
          rw [hremEq] at hrem
          rw [hrem, List.append_nil] at hsplit
          simpa using (hperm1.symm.trans hsplit)
        · rw [if_neg hrem]
          have hgoal :
              (P ++ tasks.filter (fun t => decide (t.id ∉ ids P))).Perm
                tasks := by
            rw [hremEq]
            exact (hperm1.symm.append_right _).trans hsplit
          simpa using hgoal
      · have hne : ¬ (scanPass tasks (ids P)).1 = [] := by
          rw [hp]; exact hempty
        have hp1 : (scanPass tasks (ids P)).1 = new := by rw [hp]
        have hp2 : (scanPass tasks (ids P)).2 = ids (P ++ new) := by
          rw [hp, ids_append]
        rw [buildLoop_step tasks fuel (ids P) hlt hne, hp1, hp2]
        have hsub' : ∀ p ∈ P ++ new, p ∈ tasks := by
          intro p hp'
          rcases List.mem_append.mp hp' with h | h
          · exact hsub p h
          · exact hnew_sub p h
        have hnd' : (ids (P ++ new)).Nodup := by
          rw [ids_append]; exact hnew_nd hnd
        have hfuel' : tasks.length + 1 ≤ fuel + (P ++ new).length := by
          have : 1 ≤ new.length := List.length_pos.mpr hempty
          rw [List.length_append]
          omega
        have := ih (P ++ new) hsub' hnd' hfuel'
        simpa [List.flatten_cons, List.append_assoc] using this
    · rw [buildLoop_done tasks fuel (ids P) hlt]
      have hge : tasks.length ≤ P.length := by
        rw [length_ids] at hlt
        omega
      have hPerm : P.Perm tasks :=
        ((List.Nodup.of_map _ hnd).subperm hsub).perm_of_length_le hge
      simpa using hPerm

/-- Component form of `buildLoop_step` for the batch list. -/
theorem buildLoop_step_fst (tasks : List TaskDoc) (fuel : Nat)
    (sched : List (Option Ident)) (h : sched.length < tasks.length)
    (hne : ¬ (scanPass tasks sched).1 = []) :
    (buildLoop tasks (fuel + 1) sched).1 =
      (scanPass tasks sched).1 ::
        (buildLoop tasks fuel (scanPass tasks sched).2).1 := by
  rw [buildLoop_step tasks fuel sched h hne]

/-- Component form of `buildLoop_step` for the warning flag. -/
theorem buildLoop_step_snd (tasks : List TaskDoc) (fuel : Nat)
    (sched : List (Option Ident)) (h : sched.length < tasks.length)
    (hne : ¬ (scanPass tasks sched).1 = []) :
    (buildLoop tasks (fuel + 1) sched).2 =
      (buildLoop tasks fuel (scanPass tasks sched).2).2 := by
  rw [buildLoop_step tasks fuel sched h hne]

/-- No task of the input outside the placed prefix carries a placed id. -/
theorem id_not_in_ids (tasks P : List TaskDoc) (T : TaskDoc)
    (htn : (ids tasks).Nodup) (hsub : ∀ p ∈ P, p ∈ tasks) (hT : T ∈ tasks)
    (hTP : T ∉ P) : T.id ∉ ids P := by
  intro h
  obtain ⟨p, hp, hpe⟩ := (mem_ids_iff _ _).mp h
  have : p = T := id_inj tasks htn p (hsub p hp) T hT hpe
  exact hTP (this ▸ hp)

/-- A strictly partial placement leaves some input task unplaced. -/
theorem exists_unplaced (tasks P : List TaskDoc) (htn : (ids tasks).Nodup)
    (hlt : P.length < tasks.length) :
    ∃ t ∈ tasks, t ∉ P := by
  by_contra hc
  push_neg at hc
  have htasks : tasks.Nodup := List.Nodup.of_map _ htn
  have := (htasks.subperm hc).length_le
  omega

/-- Every batch the loop emits is non-empty and consists of input tasks. -/
theorem loop_batches_mem (tasks : List TaskDoc) :
    ∀ fuel (sched : List (Option Ident)) b,
      b ∈ (buildLoop tasks fuel sched).1 → b ≠ [] ∧ ∀ t ∈ b, t ∈ tasks := by
  intro fuel
  induction fuel with
  | zero =>
    intro sched b hb
    simp [buildLoop] at hb
  | succ fuel ih =>
    intro sched b hb
    by_cases hlt : sched.length < tasks.length
    · obtain ⟨new, hp, hnew_sub, -, -⟩ := scanPass_spec tasks sched
      by_cases hempty : new = []
      · have he1 : (scanPass tasks sched).1 = [] := by rw [hp, hempty]
        rw [buildLoop_fallback tasks fuel sched hlt he1] at hb
        by_cases hrem :
            tasks.filter (fun t => decide (t.id ∉ (scanPass tasks sched).2)) = []
        · rw [if_pos hrem] at hb
          simp at hb
        · rw [if_neg hrem] at hb
          simp only [List.mem_singleton] at hb
          subst hb
          refine ⟨hrem, ?_⟩
          intro t ht
          exact (List.mem_filter.mp ht).1
      · have hne : ¬ (scanPass tasks sched).1 = [] := by rw [hp]; exact hempty
        rw [buildLoop_step_fst tasks fuel sched hlt hne] at hb
        rcases List.mem_cons.mp hb with h | h
        · subst h
          refine ⟨hne, ?_⟩
          intro t ht
          rw [hp] at ht
          exact hnew_sub t ht
        · exact ih _ b h
    · rw [buildLoop_done tasks fuel sched hlt] at hb
      simp at hb

/-- Structure of a warned run: whenever the circular-dependency warning
fires, the produced batch list ends with one final non-empty batch holding
exactly the input tasks whose ids were not placed by the earlier batches. -/
theorem loop_warn (tasks : List TaskDoc) (htn : (ids tasks).Nodup) :
    ∀ fuel (P : List TaskDoc), (∀ p ∈ P, p ∈ tasks) → (ids P).Nodup →
      (buildLoop tasks fuel (ids P)).2 = true →
      ∃ pre fin, (buildLoop tasks fuel (ids P)).1 = pre ++ [fin] ∧
        fin ≠ [] ∧
        fin = tasks.filter
          (fun t => decide (t.id ∉ ids (P ++ pre.flatten))) := by
  intro fuel
  induction fuel with
  | zero =>
    intro P hsub hnd hw
    simp [buildLoop] at hw
  | succ fuel ih =>
    intro P hsub hnd hw
    by_cases hlt : (ids P).length < tasks.length
    · obtain ⟨new, hp, hnew_sub, hnew_fresh, hnew_nd⟩ :=
        scanPass_spec tasks (ids P)
      by_cases hempty : new = []
      · have he1 : (scanPass tasks (ids P)).1 = [] := by rw [hp, hempty]
        have he2 : (scanPass tasks (ids P)).2 = ids P := by
          rw [hp, hempty, ids_nil, List.append_nil]
        have hlt' : P.length < tasks.length := by
          rw [length_ids] at hlt; exact hlt
        obtain ⟨T, hT, hTP⟩ := exists_unplaced tasks P htn hlt'
        have hTid : T.id ∉ ids P := id_not_in_ids tasks P T htn hsub hT hTP
        have hTrem : T ∈ tasks.filter
            (fun t => decide (t.id ∉ (scanPass tasks (ids P)).2)) := by
          rw [List.mem_filter, he2]
          exact ⟨hT, by simpa using hTid⟩
        have hrem :
            ¬ tasks.filter
              (fun t => decide (t.id ∉ (scanPass tasks (ids P)).2)) = [] := by
          intro hc
          rw [hc] at hTrem
          cases hTrem
        rw [buildLoop_fallback tasks fuel (ids P) hlt he1]
        refine ⟨[], tasks.filter
          (fun t => decide (t.id ∉ (scanPass tasks (ids P)).2)), ?_, hrem, ?_⟩
        · rw [if_neg hrem]
          rfl
        · rw [he2]
          simp
      · have hne : ¬ (scanPass tasks (ids P)).1 = [] := by rw [hp]; exact hempty
        have hp2 : (scanPass tasks (ids P)).2 = ids (P ++ new) := by
          rw [hp, ids_append]
        have hsub' : ∀ p ∈ P ++ new, p ∈ tasks := by
          intro p hp'
          rcases List.mem_append.mp hp' with h | h
          · exact hsub p h
          · exact hnew_sub p h
        have hnd' : (ids (P ++ new)).Nodup := by
          rw [ids_append]; exact hnew_nd hnd
        have hw' : (buildLoop tasks fuel (ids (P ++ new))).2 = true := by
          rw [← hp2]
          rw [buildLoop_step_snd tasks fuel (ids P) hlt hne] at hw
          exact hw
        obtain ⟨pre, fin, hshape, hfne, hfil⟩ := ih (P ++ new) hsub' hnd' hw'
        have hp1 : (scanPass tasks (ids P)).1 = new := by rw [hp]
        refine ⟨new :: pre, fin, ?_, hfne, ?_⟩
        · rw [buildLoop_step_fst tasks fuel (ids P) hlt hne, hp1, hp2,
            hshape]
          rfl
        · rw [hfil]
          congr 1
          funext t
          simp [ids_append, List.append_assoc]
    · rw [buildLoop_done tasks fuel (ids P) hlt] at hw
      cases hw

/-- With distinct ids, no document before `T` in the scan order shares
`T`'s id. -/
theorem split_fresh (l1 l2 : List TaskDoc) (T : TaskDoc)
    (htn : (ids (l1 ++ T :: l2)).Nodup) : ∀ u ∈ l1, u.id ≠ T.id := by
  intro u hu he
  rw [ids_append, ids_cons] at htn
  have hdis := (List.nodup_append.mp htn).2.2
  exact hdis ((mem_ids_iff _ _).mpr ⟨u, hu, rfl⟩)
    (by rw [he]; exact List.mem_cons_self _ _)

/-- Pass-level maximality: with distinct ids, an unscheduled task eligible
at the start of the pass is put into the pass's batch. -/
theorem scanPass_max (tasks : List TaskDoc) (sched : List (Option Ident))
    (T : TaskDoc) (htn : (ids tasks).Nodup) (hT : T ∈ tasks)
    (hrun : canRun sched T = true) (hns : T.id ∉ sched) :
    T ∈ (scanPass tasks sched).1 := by
  obtain ⟨l1, l2, hsplit⟩ := List.append_of_mem hT
  subst hsplit
  exact scan_max l1 l2 T [] sched hrun hns (split_fresh l1 l2 T htn)

/-- Loop-level maximality: a task not placed among the first `i` batches
whose well-formed dependency references all point at ids placed before
batch `i` (or in the starting placement) appears in batch `i`. -/
theorem loop_max (tasks : List TaskDoc) (htn : (ids tasks).Nodup) :
    ∀ fuel (P : List TaskDoc) (T : TaskDoc) (i : Nat),
      (∀ p ∈ P, p ∈ tasks) → (ids P).Nodup →
      tasks.length + 1 ≤ fuel + P.length → T ∈ tasks → T ∉ P →
      T ∉ ((buildLoop tasks fuel (ids P)).1.take i).flatten →
      (∀ tid, DepEntry.ref tid ∈ T.deps →
        some tid ∈ ids P ++
          ids (((buildLoop tasks fuel (ids P)).1.take i).flatten)) →
      ∃ b, (buildLoop tasks fuel (ids P)).1[i]? = some b ∧ T ∈ b := by
  intro fuel
  induction fuel with
  | zero =>
    intro P T i hsub hnd hfuel hT hTP _ _
    have := length_lt_of_missing tasks P T hsub
      (List.Nodup.of_map _ hnd) hT hTP
    omega
  | succ fuel ih =>
    intro P T i hsub hnd hfuel hT hTP htake hrefs
    have hltP : P.length < tasks.length :=
      length_lt_of_missing tasks P T hsub (List.Nodup.of_map _ hnd) hT hTP
    have hlt : (ids P).length < tasks.length := by
      rw [length_ids]; exact hltP
    have hTid : T.id ∉ ids P := id_not_in_ids tasks P T htn hsub hT hTP
    obtain ⟨new, hp, hnew_sub, hnew_fresh, hnew_nd⟩ :=
      scanPass_spec tasks (ids P)
    have hp1 : (scanPass tasks (ids P)).1 = new := by rw [hp]
    have hp2 : (scanPass tasks (ids P)).2 = ids (P ++ new) := by
      rw [hp, ids_append]
    cases i with
    | zero =>
      have hrun : canRun (ids P) T = true := by
        apply canRun_of_refs
        intro tid htid
        have := hrefs tid htid
        simpa [ids_nil] using this
      have hmemT : T ∈ new := by
        have := scanPass_max tasks (ids P) T htn hT hrun hTid
        rw [hp1] at this
        exact this
      have hnewne : new ≠ [] := fun hc => by
        rw [hc] at hmemT; cases hmemT
      have hne : ¬ (scanPass tasks (ids P)).1 = [] := by
        rw [hp1]; exact hnewne
      have hfst := buildLoop_step_fst tasks fuel (ids P) hlt hne
      rw [hp1] at hfst
      refine ⟨new, ?_, hmemT⟩
      rw [hfst]
      simp
    | succ i' =>
      by_cases hempty : new = []
      · have he1 : (scanPass tasks (ids P)).1 = [] := by rw [hp1, hempty]
        have he2 : (scanPass tasks (ids P)).2 = ids P := by
          rw [hp2, hempty, List.append_nil]
        have hfb := buildLoop_fallback tasks fuel (ids P) hlt he1
        have hTrem : T ∈ tasks.filter
            (fun t => decide (t.id ∉ (scanPass tasks (ids P)).2)) := by
          rw [List.mem_filter, he2]
          exact ⟨hT, by simpa using hTid⟩
        have hrem : ¬ tasks.filter
            (fun t => decide (t.id ∉ (scanPass tasks (ids P)).2)) = [] := by
          intro hc
          rw [hc] at hTrem
          cases hTrem
        rw [hfb, if_neg hrem] at htake
        exfalso
        apply htake
        have : List.take (i' + 1)
            [tasks.filter
              (fun t => decide (t.id ∉ (scanPass tasks (ids P)).2))] =
            [tasks.filter
              (fun t => decide (t.id ∉ (scanPass tasks (ids P)).2))] := by
          rw [List.take_succ_cons, List.take_nil]
        rw [this]
        simpa using hTrem
      · have hne : ¬ (scanPass tasks (ids P)).1 = [] := by
          rw [hp1]; exact hempty
        have hfst := buildLoop_step_fst tasks fuel (ids P) hlt hne
        rw [hp1, hp2] at hfst
        have hsub' : ∀ p ∈ P ++ new, p ∈ tasks := by
          intro p hp'
          rcases List.mem_append.mp hp' with h | h
          · exact hsub p h
          · exact hnew_sub p h
        have hnd' : (ids (P ++ new)).Nodup := by
          rw [ids_append]; exact hnew_nd hnd
        have hfuel' : tasks.length + 1 ≤ fuel + (P ++ new).length := by
          have : 1 ≤ new.length := List.length_pos.mpr hempty
          rw [List.length_append]
          omega
        rw [hfst] at htake hrefs
        rw [List.take_succ_cons, List.flatten_cons] at htake hrefs
        have hTnew : T ∉ new := fun hc =>
          htake (List.mem_append_left _ hc)
        have htake' : T ∉
            ((buildLoop tasks fuel (ids (P ++ new))).1.take i').flatten :=
          fun hc => htake (List.mem_append_right _ hc)
        have hTP' : T ∉ P ++ new := fun hc => by
          rcases List.mem_append.mp hc with h | h
          · exact hTP h
          · exact hTnew h
        have hrefs' : ∀ tid, DepEntry.ref tid ∈ T.deps →
            some tid ∈ ids (P ++ new) ++
              ids (((buildLoop tasks fuel (ids (P ++ new))).1.take
                i').flatten) := by
          intro tid htid
          have := hrefs tid htid
          rw [ids_append] at this ⊢
          rw [ids_append] at this
          simpa [List.append_assoc] using this
        obtain ⟨b, hb, hTb⟩ :=
          ih (P ++ new) T i' hsub' hnd' hfuel' hT hTP' htake' hrefs'
        refine ⟨b, ?_, hTb⟩
        rw [hfst, List.getElem?_cons_succ]
        exact hb

/-- A task that is ineligible under every scheduled set drawn from the
input's ids is placed, if at all, only by the fallback: the warning has
fired and the task sits in the one final batch. -/
theorem loop_dangling (tasks : List TaskDoc) (T : TaskDoc)
    (hblock : ∀ s2, (∀ x ∈ s2, ∃ u ∈ tasks, x = u.id) →
      canRun s2 T ≠ true) :
    ∀ fuel (sched : List (Option Ident)),
      (∀ x ∈ sched, ∃ u ∈ tasks, x = u.id) →
      T ∈ (buildLoop tasks fuel sched).1.flatten →
      (buildLoop tasks fuel sched).2 = true ∧
        ∃ pre fin, (buildLoop tasks fuel sched).1 = pre ++ [fin] ∧
          T ∈ fin := by
  intro fuel
  induction fuel with
  | zero =>
    intro sched _ hmem
    simp [buildLoop] at hmem
  | succ fuel ih =>
    intro sched hsched hmem
    by_cases hcond : sched.length < tasks.length
    · obtain ⟨new, hp, hnew_sub, -, -⟩ := scanPass_spec tasks sched
      have hp1 : (scanPass tasks sched).1 = new := by rw [hp]
      by_cases hempty : new = []
      · have he1 : (scanPass tasks sched).1 = [] := by rw [hp1, hempty]
        rw [buildLoop_fallback tasks fuel sched hcond he1] at hmem ⊢
        by_cases hrem :
            tasks.filter
              (fun t => decide (t.id ∉ (scanPass tasks sched).2)) = []
        · rw [if_pos hrem] at hmem
          simp at hmem
        · rw [if_neg hrem] at hmem ⊢
          refine ⟨rfl, [], _, rfl, ?_⟩
          simpa using hmem
      · have hne : ¬ (scanPass tasks sched).1 = [] := by
          rw [hp1]; exact hempty
        rw [buildLoop_step_fst tasks fuel sched hcond hne, hp1,
          List.flatten_cons] at hmem
        have hTnew : T ∉ new := by
          intro hc
          rw [← hp1] at hc
          rcases scan_elig tasks [] sched T hc with h | ⟨s2, hs2, hrun⟩
          · cases h
          · refine hblock s2 ?_ hrun
            intro x hx
            rcases hs2 x hx with h | h
            · exact hsched x h
            · exact h
        have hmem' : T ∈ (buildLoop tasks fuel (scanPass tasks sched).2).1.flatten := by
          rcases List.mem_append.mp hmem with h | h
          · exact absurd h hTnew
          · exact h
        have hsched' : ∀ x ∈ (scanPass tasks sched).2,
            ∃ u ∈ tasks, x = u.id := by
          rw [hp]
          intro x hx
          rcases List.mem_append.mp hx with h | h
          · exact hsched x h
          · obtain ⟨u, hu, hue⟩ := (mem_ids_iff _ _).mp h
            exact ⟨u, hnew_sub u hu, hue.symm⟩
        obtain ⟨hw, pre, fin, hshape, hTfin⟩ :=
          ih ((scanPass tasks sched).2) hsched' hmem'
        refine ⟨?_, new :: pre, fin, ?_, hTfin⟩
        · rw [buildLoop_step_snd tasks fuel sched hcond hne]
          exact hw
        · rw [buildLoop_step_fst tasks fuel sched hcond hne, hp1, hshape]
          rfl
    · rw [buildLoop_done tasks fuel sched hcond] at hmem
      simp at hmem

/-- The loop's result does not depend on the fuel once the fuel covers the
number of still-unscheduled tasks plus one: every productive iteration
grows the scheduled set, and the loop stops as soon as it is exhausted or
stuck, so the `while` loop of the source terminates within
`len(tasks) + 1` iterations. -/
theorem loop_fuel (tasks : List TaskDoc) :
    ∀ f g (sched : List (Option Ident)),
      tasks.length + 1 ≤ f + sched.length →
      tasks.length + 1 ≤ g + sched.length →
      buildLoop tasks f sched = buildLoop tasks g sched := by
  intro f
  induction f with
  | zero =>
    intro g sched hf hg
    have hcond : ¬ sched.length < tasks.length := by omega
    cases g with
    | zero => rfl
    | succ g =>
      show ([], false) = _
      rw [buildLoop_done tasks g sched hcond]
  | succ f ihf =>
    intro g sched hf hg
    cases g with
    | zero =>
      have hcond : ¬ sched.length < tasks.length := by omega
      rw [buildLoop_done tasks f sched hcond]
      rfl
    | succ g =>
      by_cases hcond : sched.length < tasks.length
      · obtain ⟨new, hp, -, -, -⟩ := scanPass_spec tasks sched
        have hp1 : (scanPass tasks sched).1 = new := by rw [hp]
        by_cases hempty : new = []
        · have he1 : (scanPass tasks sched).1 = [] := by rw [hp1, hempty]
          rw [buildLoop_fallback tasks f sched hcond he1,
            buildLoop_fallback tasks g sched hcond he1]
        · have hne : ¬ (scanPass tasks sched).1 = [] := by
            rw [hp1]; exact hempty
          rw [buildLoop_step tasks f sched hcond hne,
            buildLoop_step tasks g sched hcond hne]
          have hlen : (scanPass tasks sched).2.length =
              sched.length + new.length := by
            rw [hp]
            simp [length_ids]
          have hne1 : 1 ≤ new.length := List.length_pos.mpr hempty
          have := ihf g ((scanPass tasks sched).2) (by omega) (by omega)
          rw [this]
      · rw [buildLoop_done tasks f sched hcond,
          buildLoop_done tasks g sched hcond]

/-- The scan treats two task lists with the same id/dependency skeletons
identically: batches agree up to skeleton and scheduled sets agree
exactly. -/
theorem scan_congr (ts1 : List TaskDoc) :
    ∀ (ts2 : List TaskDoc), ts1.map skel = ts2.map skel →
    ∀ (b1 b2 : List TaskDoc) (s : List (Option Ident)),
      b1.map skel = b2.map skel →
      (List.foldl scanStep (b1, s) ts1).1.map skel =
        (List.foldl scanStep (b2, s) ts2).1.map skel ∧
      (List.foldl scanStep (b1, s) ts1).2 =
        (List.foldl scanStep (b2, s) ts2).2 := by
  induction ts1 with
  | nil =>
    intro ts2 h b1 b2 s hb
    have : ts2 = [] := by
      rw [List.map_nil] at h
      exact List.map_eq_nil_iff.mp h.symm
    subst this
    exact ⟨hb, rfl⟩
  | cons t ts1 ih =>
    intro ts2 h b1 b2 s hb
    cases ts2 with
    | nil => rw [List.map_cons, List.map_nil] at h; cases h
    | cons u ts2 =>
      rw [List.map_cons, List.map_cons] at h
      have h1 : skel t = skel u := by injection h
      have h2 : ts1.map skel = ts2.map skel := by injection h
      have hid : t.id = u.id := congrArg Prod.fst h1
      have hdeps : t.deps = u.deps := congrArg Prod.snd h1
      rw [List.foldl_cons, List.foldl_cons]
      by_cases hmem : t.id ∈ s
      · rw [scanStep_skip b1 s t hmem, scanStep_skip b2 s u (hid ▸ hmem)]
        exact ih ts2 h2 b1 b2 s hb
      · have hmem2 : u.id ∉ s := fun hc => hmem (by rw [hid]; exact hc)
        have hcr : canRun s t = canRun s u := canRun_congr s t u hdeps
        by_cases hrun : canRun s t = true
        · rw [scanStep_add b1 s t hmem hrun,
            scanStep_add b2 s u hmem2 (hcr ▸ hrun), hid]
          apply ih ts2 h2
          rw [List.map_append, List.map_append, hb]
          simp [skel, hid, hdeps]
        · have hrun2 : ¬ canRun s u = true := by rw [← hcr]; exact hrun
          rw [scanStep_stuck b1 s t hmem hrun, scanStep_stuck b2 s u hmem2 hrun2]
          exact ih ts2 h2 b1 b2 s hb

/-- The fallback filter also only looks at skeletons. -/
theorem filter_ids_congr (ts1 : List TaskDoc) :
    ∀ (ts2 : List TaskDoc), ts1.map skel = ts2.map skel →
    ∀ (s : List (Option Ident)),
      (ts1.filter (fun t => decide (t.id ∉ s))).map skel =
        (ts2.filter (fun t => decide (t.id ∉ s))).map skel := by
  induction ts1 with
  | nil =>
    intro ts2 h s
    have : ts2 = [] := by
      rw [List.map_nil] at h
      exact List.map_eq_nil_iff.mp h.symm
    subst this
    rfl
  | cons t ts1 ih =>
    intro ts2 h s
    cases ts2 with
    | nil => rw [List.map_cons, List.map_nil] at h; cases h
    | cons u ts2 =>
      rw [List.map_cons, List.map_cons] at h
      have h1 : skel t = skel u := by injection h
      have h2 : ts1.map skel = ts2.map skel := by injection h
      have hid : t.id = u.id := congrArg Prod.fst h1
      rw [List.filter_cons, List.filter_cons, hid]
      by_cases hni : u.id ∉ s
      · rw [if_pos (by simpa using hni), if_pos (by simpa using hni)]
        rw [List.map_cons, List.map_cons, h1, ih ts2 h2 s]
      · rw [if_neg (by simpa using hni), if_neg (by simpa using hni)]
        exact ih ts2 h2 s

/-- The loop treats two inputs with equal skeleton lists identically: the
batch structure agrees up to skeleton and the warning flags agree. -/
theorem loop_congr (ts1 ts2 : List TaskDoc) (h : ts1.map skel = ts2.map skel) :
    ∀ fuel (sched : List (Option Ident)),
      ((buildLoop ts1 fuel sched).1.map (List.map skel) =
        (buildLoop ts2 fuel sched).1.map (List.map skel)) ∧
      (buildLoop ts1 fuel sched).2 = (buildLoop ts2 fuel sched).2 := by
  have hlen : ts1.length = ts2.length := by
    rw [← List.length_map ts1 skel, h, List.length_map]
  intro fuel
  induction fuel with
  | zero => intro sched; simp [buildLoop]
  | succ fuel ih =>
    intro sched
    by_cases hcond : sched.length < ts1.length
    · have hcond2 : sched.length < ts2.length := by rw [← hlen]; exact hcond
      have hsc := scan_congr ts1 ts2 h [] [] sched rfl
      have hsc1 : (scanPass ts1 sched).1.map skel =
          (scanPass ts2 sched).1.map skel := hsc.1
      have hsc2 : (scanPass ts1 sched).2 = (scanPass ts2 sched).2 := hsc.2
      by_cases hempty : (scanPass ts1 sched).1 = []
      · have hempty2 : (scanPass ts2 sched).1 = [] := by
          rw [hempty, List.map_nil] at hsc1
          exact List.map_eq_nil_iff.mp hsc1.symm
        rw [buildLoop_fallback ts1 fuel sched hcond hempty,
          buildLoop_fallback ts2 fuel sched hcond2 hempty2]
        have hfeq : (ts1.filter
            (fun t => decide (t.id ∉ (scanPass ts1 sched).2))).map skel =
            (ts2.filter
              (fun t => decide (t.id ∉ (scanPass ts2 sched).2))).map skel := by
          rw [← hsc2]
          exact filter_ids_congr ts1 ts2 h ((scanPass ts1 sched).2)
        by_cases hrem : ts1.filter
            (fun t => decide (t.id ∉ (scanPass ts1 sched).2)) = []
        · have hrem2 : ts2.filter
              (fun t => decide (t.id ∉ (scanPass ts2 sched).2)) = [] := by
            rw [hrem, List.map_nil] at hfeq
            exact List.map_eq_nil_iff.mp hfeq.symm
          rw [if_pos hrem, if_pos hrem2]
          exact ⟨rfl, rfl⟩
        · have hrem2 : ¬ ts2.filter
              (fun t => decide (t.id ∉ (scanPass ts2 sched).2)) = [] := by
            intro hc
            rw [hc, List.map_nil] at hfeq
            exact hrem (List.map_eq_nil_iff.mp hfeq)
          rw [if_neg hrem, if_neg hrem2]
          refine ⟨?_, rfl⟩
          rw [List.map_cons, List.map_nil, List.map_cons, List.map_nil, hfeq]
      · have hempty2 : ¬ (scanPass ts2 sched).1 = [] := by
          intro hc
          rw [hc, List.map_nil] at hsc1
          exact hempty (List.map_eq_nil_iff.mp hsc1)
        rw [buildLoop_step ts1 fuel sched hcond hempty,
          buildLoop_step ts2 fuel sched hcond2 hempty2]
        constructor
        · show ((scanPass ts1 sched).1 ::
              (buildLoop ts1 fuel (scanPass ts1 sched).2).1).map
              (List.map skel) =
            ((scanPass ts2 sched).1 ::
              (buildLoop ts2 fuel (scanPass ts2 sched).2).1).map
              (List.map skel)
          rw [List.map_cons, List.map_cons, hsc1, hsc2,
            (ih ((scanPass ts2 sched).2)).1]
        · show (buildLoop ts1 fuel (scanPass ts1 sched).2).2 =
            (buildLoop ts2 fuel (scanPass ts2 sched).2).2
          rw [hsc2]
          exact (ih ((scanPass ts2 sched).2)).2
    · have hcond2 : ¬ sched.length < ts2.length := by rw [← hlen]; exact hcond
      cases fuel with
      | zero =>
        rw [buildLoop_done ts1 0 sched hcond, buildLoop_done ts2 0 sched hcond2]
        exact ⟨rfl, rfl⟩
      | succ f =>
        rw [buildLoop_done ts1 (f + 1) sched hcond,
          buildLoop_done ts2 (f + 1) sched hcond2]
        exact ⟨rfl, rfl⟩

/-- C1. The claimed strict dependency ordering fails on the code: for the
spec's own diamond scenario {A: [], B: [A], C: [A], D: [B, C]} presented
in this natural input order, the scheduler returns the single batch
[A, B, C, D] without firing the fallback, because `scheduled.add` runs
inside the scan and later tasks of the same pass see their dependencies as
already satisfied; task D shares batch 1 with its dependencies B and C
(j = i, not j < i), where the claim expects [[A], [B, C], [D]]. -/
theorem claim1_diamond_single_batch :
    build_execution_batches_fallback exDiamond = [[tA, tB, tC, tD]] ∧
    (build_execution_batches_fallbackW exDiamond).2 = false ∧
    (build_execution_batches_fallback exDiamond).length ≠ 3 := by
  refine ⟨by decide, by decide, by decide⟩

/-- C2, counterexample. A dangling dependency reference is not treated as
already satisfied: for {A: [], B: [Z]} with Z absent, the code produces
two batches [[A], [B]] (B is dumped by the cycle fallback, with the
warning), not the claimed single batch {A, B}. -/
theorem claim2_counterexample :
    build_execution_batches_fallback exDangling = [[tA], [tBd]] ∧
    (build_execution_batches_fallback exDangling).length ≠ 1 ∧
    (build_execution_batches_fallbackW exDangling).2 = true := by
  refine ⟨by decide, by decide, by decide⟩

/-- C2, amended. A task carrying a dependency reference whose identifier
is absent from the input set is never eligible: the run necessarily ends
in the circular-dependency warning and the task is placed in the one final
fallback batch. -/
theorem claim2_dangling_blocks (tasks : List TaskDoc) (T : TaskDoc)
    (z : Ident) (hgood : goodIds tasks) (hT : T ∈ tasks)
    (hdep : DepEntry.ref z ∈ T.deps)
    (hdangling : ∀ u ∈ tasks, u.id ≠ some z) :
    (build_execution_batches_fallbackW tasks).2 = true ∧
    ∃ pre fin, build_execution_batches_fallback tasks = pre ++ [fin] ∧
      T ∈ fin := by
  have hblock : ∀ s2, (∀ x ∈ s2, ∃ u ∈ tasks, x = u.id) →
      canRun s2 T ≠ true := by
    intro s2 hs2 hc
    unfold canRun at hc
    have hne : ¬ T.deps.length = 0 := by
      intro h0
      rw [List.length_eq_zero.mp h0] at hdep
      cases hdep
    rw [if_neg hne] at hc
    have := List.all_eq_true.mp hc _ hdep
    simp only [depSatisfied, decide_eq_true_eq] at this
    obtain ⟨u, hu, hue⟩ := hs2 _ this
    exact hdangling u hu hue.symm
  have hperm := loop_perm tasks hgood.1 (tasks.length + 1) []
    (by simp) (by simp [ids_nil]) (by simp)
  rw [ids_nil, List.nil_append] at hperm
  have hmem : T ∈ (build_execution_batches_fallbackW tasks).1.flatten :=
    hperm.mem_iff.mpr hT
  have := loop_dangling tasks T hblock (tasks.length + 1) []
    (by simp) hmem
  exact ⟨this.1, this.2⟩

/-- C3. Completeness: for well-formed input (unique, present ids) the
concatenation of the returned batches is a permutation of the input list —
every task appears in exactly one batch, none is dropped or duplicated —
and the empty input yields the empty batch sequence. -/
theorem claim3_completeness :
    (∀ tasks : List TaskDoc, goodIds tasks →
      ((build_execution_batches_fallback tasks).flatten).Perm tasks) ∧
    build_execution_batches_fallback [] = [] := by
  constructor
  · intro tasks hgood
    have hperm := loop_perm tasks hgood.1 (tasks.length + 1) []
      (by simp) (by simp [ids_nil]) (by simp)
    rw [ids_nil, List.nil_append] at hperm
    exact hperm
  · rfl

/-- Witness for C3 at the diamond scenario. -/
theorem claim3_completeness_witness :
    goodIds exDiamond ∧
    ((build_execution_batches_fallback exDiamond).flatten).Perm exDiamond :=
  ⟨by decide, claim3_completeness.1 exDiamond (by decide)⟩

/-- C4. Cycle fallback: under the spec's well-formedness preconditions
(unique, present ids), whenever the circular-dependency warning fires the
returned schedule consists of the batches built so far followed by exactly
one final batch holding precisely the tasks whose ids were not scheduled
earlier — the final batch is non-empty, and nothing is dropped (the
flattened result is still a permutation of the input). -/
theorem claim4_cycle_fallback (tasks : List TaskDoc) (hgood : goodIds tasks)
    (hw : (build_execution_batches_fallbackW tasks).2 = true) :
    ∃ pre fin, build_execution_batches_fallback tasks = pre ++ [fin] ∧
      fin ≠ [] ∧
      fin = tasks.filter (fun t => decide (t.id ∉ ids pre.flatten)) ∧
      (pre.flatten ++ fin).Perm tasks := by
  have hwarn := loop_warn tasks hgood.1 (tasks.length + 1) []
    (by simp) (by simp [ids_nil])
  rw [ids_nil] at hwarn
  obtain ⟨pre, fin, hshape, hfne, hfil⟩ := hwarn hw
  refine ⟨pre, fin, hshape, hfne, ?_, ?_⟩
  · rw [hfil]
    simp
  · have hperm := loop_perm tasks hgood.1 (tasks.length + 1) []
      (by simp) (by simp [ids_nil]) (by simp)
    rw [ids_nil, List.nil_append, hshape] at hperm
    simpa using hperm

/-- Witness for C4 at the spec's two-cycle {A: [B], B: [A]}: the warning
fires and the result is the single batch [A, B]. -/
theorem claim4_cycle_fallback_witness :
    goodIds exCycle ∧ (build_execution_batches_fallbackW exCycle).2 = true ∧
    (∃ pre fin, build_execution_batches_fallback exCycle = pre ++ [fin] ∧
      fin ≠ [] ∧
      fin = exCycle.filter (fun t => decide (t.id ∉ ids pre.flatten)) ∧
      (pre.flatten ++ fin).Perm exCycle) ∧
    build_execution_batches_fallback exCycle = [[tAc, tBc]] :=
  ⟨by decide, by decide, claim4_cycle_fallback exCycle (by decide) (by decide),
    by decide⟩

/-- C5. Termination: the embedded `while` loop is insensitive to any fuel
bound of at least `len(tasks) + 1`, i.e. the source's loop always
terminates within that many iterations — each productive iteration
schedules at least one task and an unproductive one breaks — for every
input, cyclic or not; the embedding is total, so no exception is
modelled or needed. -/
theorem claim5_termination (tasks : List TaskDoc) (fuel : Nat)
    (hfuel : tasks.length + 1 ≤ fuel) :
    buildLoop tasks fuel [] = build_execution_batches_fallbackW tasks := by
  exact loop_fuel tasks fuel (tasks.length + 1) [] (by simpa) (by simp)

/-- Witness for C5: fuel 10 suffices for the two-task cycle. -/
theorem claim5_termination_witness :
    exCycle.length + 1 ≤ 10 ∧
    buildLoop exCycle 10 [] = build_execution_batches_fallbackW exCycle :=
  ⟨by decide, claim5_termination exCycle 10 (by decide)⟩

/-- C6, counterexample. Maximality as claimed fails: in {A: [], B: [Z]}
with Z absent from the input, task B has no dependency that is present in
the input set — so by the claim it should appear in the first batch — yet
the code defers it to the second (fallback) batch. -/
theorem claim6_counterexample :
    ids exDangling = [some 1, some 2] ∧
    tBd.deps = [DepEntry.ref 99] ∧
    build_execution_batches_fallback exDangling = [[tA], [tBd]] ∧
    (build_execution_batches_fallback exDangling)[0]? = some [tA] ∧
    tBd ∉ ([tA] : List TaskDoc) := by
  refine ⟨by decide, by decide, by decide, by decide, by decide⟩

/-- C6, amended. Maximality holds with eligibility measured by the code's
own criterion: if every well-formed dependency reference of T (dangling
ones included — they are never satisfiable) points at an id scheduled in
batches strictly before i, and T is not in those batches, then T appears
in batch i (zero-based), never later. -/
theorem claim6_maximality (tasks : List TaskDoc) (hgood : goodIds tasks)
    (T : TaskDoc) (hT : T ∈ tasks) (i : Nat)
    (hnotyet : T ∉ ((build_execution_batches_fallback tasks).take i).flatten)
    (hrefs : ∀ tid, DepEntry.ref tid ∈ T.deps →
      some tid ∈
        ids (((build_execution_batches_fallback tasks).take i).flatten)) :
    ∃ b, (build_execution_batches_fallback tasks)[i]? = some b ∧ T ∈ b :=
  loop_max tasks hgood.1 (tasks.length + 1) [] T i
    (fun p hp => absurd hp (List.not_mem_nil p)) (by simp [ids_nil])
    (by simp) hT (fun hc => absurd hc (List.not_mem_nil T)) hnotyet
    (fun tid htid => hrefs tid htid)

/-- Witness for C6 (amended) at {A: [], B: [Z]}: A, with no references,
lands in batch 0. -/
theorem claim6_maximality_witness :
    goodIds exDangling ∧ tA ∈ exDangling ∧
    ∃ b, (build_execution_batches_fallback exDangling)[0]? = some b ∧
      tA ∈ b :=
  ⟨by decide, by decide,
    claim6_maximality exDangling (by decide) tA (by decide) 0 (by simp)
      (by intro tid htid; simp [tA] at htid)⟩

/-- C7. Determinism of the partition: the embedded scheduler is a pure
function, and its batch structure depends on the input only through each
document's id and dependency list — two runs on inputs with identical
id/dependency skeletons (in particular two runs on the same input) produce
the same partition shape, the same grouping of skeletons into batches, and
the same warning flag. -/
theorem claim7_determinism (ts1 ts2 : List TaskDoc)
    (h : ts1.map skel = ts2.map skel) :
    (build_execution_batches_fallback ts1).map (List.map skel) =
      (build_execution_batches_fallback ts2).map (List.map skel) ∧
    (build_execution_batches_fallbackW ts1).2 =
      (build_execution_batches_fallbackW ts2).2 := by
  have hlen : ts1.length = ts2.length := by
    rw [← List.length_map ts1 skel, h, List.length_map]
  have hc := loop_congr ts1 ts2 h (ts1.length + 1) []
  have hfe : buildLoop ts2 (ts1.length + 1) [] =
      buildLoop ts2 (ts2.length + 1) [] :=
    loop_fuel ts2 (ts1.length + 1) (ts2.length + 1) [] (by simp [hlen])
      (by simp)
  constructor
  · have := hc.1
    rw [hfe] at this
    exact this
  · have := hc.2
    rw [hfe] at this
    exact this

/-- Witness for C7: the diamond input and a payload-renamed copy of it
produce identically shaped partitions. -/
theorem claim7_determinism_witness :
    exDiamond.map skel = exDiamondP.map skel ∧
    (build_execution_batches_fallback exDiamond).map (List.map skel) =
      (build_execution_batches_fallback exDiamondP).map (List.map skel) :=
  ⟨by decide, (claim7_determinism exDiamond exDiamondP (by decide)).1⟩

/-- C8. Under the spec's well-formedness preconditions (unique, present
ids), every task with an empty `requires_completion_of` list is placed in
the first batch of the returned schedule. -/
theorem claim8_no_deps_first_batch (tasks : List TaskDoc)
    (hgood : goodIds tasks) (T : TaskDoc) (hT : T ∈ tasks)
    (hdeps : T.deps = []) :
    ∃ b, (build_execution_batches_fallback tasks)[0]? = some b ∧ T ∈ b :=
  loop_max tasks hgood.1 (tasks.length + 1) [] T 0
    (fun p hp => absurd hp (List.not_mem_nil p)) (by simp [ids_nil])
    (by simp) hT (fun hc => absurd hc (List.not_mem_nil T)) (by simp)
    (fun tid htid => by rw [hdeps] at htid; cases htid)

/-- Witness for C8: task A of the diamond lands in batch 0. -/
theorem claim8_no_deps_first_batch_witness :
    goodIds exDiamond ∧ tA ∈ exDiamond ∧ tA.deps = [] ∧
    ∃ b, (build_execution_batches_fallback exDiamond)[0]? = some b ∧
      tA ∈ b :=
  ⟨by decide, by decide, rfl,
    claim8_no_deps_first_batch exDiamond (by decide) tA (by decide) rfl⟩

/-- C9. A dependency entry that is not a mapping or lacks a truthy
`task_id` is skipped by the eligibility check, so under the spec's
well-formedness preconditions a task whose non-empty dependency list
consists only of such malformed entries is eligible immediately and placed
in the first batch. -/
theorem claim9_malformed_deps_first_batch (tasks : List TaskDoc)
    (hgood : goodIds tasks) (T : TaskDoc) (hT : T ∈ tasks)
    (hne : T.deps ≠ [])
    (hmal : ∀ d ∈ T.deps, d = DepEntry.malformed) :
    ∃ b, (build_execution_batches_fallback tasks)[0]? = some b ∧ T ∈ b :=
  loop_max tasks hgood.1 (tasks.length + 1) [] T 0
    (fun p hp => absurd hp (List.not_mem_nil p)) (by simp [ids_nil])
    (by simp) hT (fun hc => absurd hc (List.not_mem_nil T)) (by simp)
    (fun tid htid => by cases hmal (DepEntry.ref tid) htid)

/-- Witness for C9: the task whose only dependency entry is malformed
lands in batch 0. -/
theorem claim9_malformed_deps_first_batch_witness :
    goodIds exMalformed ∧ tM ∈ exMalformed ∧ tM.deps ≠ [] ∧
    (∀ d ∈ tM.deps, d = DepEntry.malformed) ∧
    ∃ b, (build_execution_batches_fallback exMalformed)[0]? = some b ∧
      tM ∈ b :=
  ⟨by decide, by decide, by decide, by decide,
    claim9_malformed_deps_first_batch exMalformed (by decide) tM (by decide)
      (by decide) (by decide)⟩

/-- C10. Every batch returned by `parse_execution_plan` and by
`build_execution_batches_fallback` is non-empty and contains only
documents of the input task list; moreover `parse_execution_plan` is not
complete — each document of its output was resolved from some plan
reference carrying its (truthy) id, so a task never mentioned by the plan
never appears. -/
theorem claim10_batch_provenance :
    (∀ (pbs : List BatchDef) (tasks : List TaskDoc) (b : List TaskDoc),
      b ∈ parse_execution_plan pbs tasks →
        b ≠ [] ∧ ∀ t ∈ b, t ∈ tasks) ∧
    (∀ (tasks : List TaskDoc) (b : List TaskDoc),
      b ∈ build_execution_batches_fallback tasks →
        b ≠ [] ∧ ∀ t ∈ b, t ∈ tasks) ∧
    (∀ (pbs : List BatchDef) (tasks : List TaskDoc) (t : TaskDoc),
      t ∈ (parse_execution_plan pbs tasks).flatten →
        ∃ bd ∈ pbs, ∃ r ∈ bd.task_refs, ∃ tid, r.task_id = some tid ∧
          taskById tasks tid = some t) := by
  have hone : ∀ (pbs : List BatchDef) (tasks : List TaskDoc)
      (b : List TaskDoc), b ∈ parse_execution_plan pbs tasks →
      (b ≠ [] ∧ ∃ bd ∈ pbs,
        b = bd.task_refs.filterMap (resolveRef tasks)) := by
    intro pbs tasks b hb
    unfold parse_execution_plan at hb
    rw [List.mem_filter] at hb
    obtain ⟨hmap, hne⟩ := hb
    refine ⟨by simpa using hne, ?_⟩
    obtain ⟨bd, hbd, hbe⟩ := List.mem_map.mp hmap
    exact ⟨bd, hbd, hbe.symm⟩
  have hres : ∀ (tasks : List TaskDoc) (r : TaskRef) (t : TaskDoc),
      resolveRef tasks r = some t →
      ∃ tid, r.task_id = some tid ∧ taskById tasks tid = some t := by
    intro tasks r t hre
    unfold resolveRef at hre
    cases hcase : r.task_id with
    | none => rw [hcase] at hre; cases hre
    | some tid =>
      rw [hcase] at hre
      exact ⟨tid, rfl, hre⟩
  have hbyid : ∀ (tasks : List TaskDoc) (tid : Ident) (t : TaskDoc),
      taskById tasks tid = some t → t ∈ tasks := by
    intro tasks tid t hby
    unfold taskById at hby
    exact (List.mem_filter.mp (List.mem_of_getLast?_eq_some hby)).1
  refine ⟨?_, ?_, ?_⟩
  · intro pbs tasks b hb
    obtain ⟨hbne, bd, hbd, hbe⟩ := hone pbs tasks b hb
    refine ⟨hbne, ?_⟩
    intro t ht
    rw [hbe] at ht
    obtain ⟨r, hr, hre⟩ := List.mem_filterMap.mp ht
    obtain ⟨tid, -, hby⟩ := hres tasks r t hre
    exact hbyid tasks tid t hby
  · intro tasks b hb
    exact loop_batches_mem tasks (tasks.length + 1) [] b hb
  · intro pbs tasks t ht
    obtain ⟨b, hbmem, htb⟩ := List.mem_flatten.mp ht
    obtain ⟨hbne, bd, hbd, hbe⟩ := hone pbs tasks b hbmem
    rw [hbe] at htb
    obtain ⟨r, hr, hre⟩ := List.mem_filterMap.mp htb
    obtain ⟨tid, hcase, hby⟩ := hres tasks r t hre
    exact ⟨bd, hbd, r, hr, tid, hcase, hby⟩

/-- Witness for C10 on a concrete plan: the recognized batch [A] of the
example plan is non-empty and drawn from the input. -/
theorem claim10_batch_provenance_witness :
    ([tA] ∈ parse_execution_plan pbsEx exDangling) ∧
    ([tA] ≠ [] ∧ ∀ t ∈ ([tA] : List TaskDoc), t ∈ exDangling) :=
  ⟨by decide, claim10_batch_provenance.1 pbsEx exDangling [tA] (by decide)⟩

/-- Witness for C2 (amended) at {A: [], B: [Z]}: B is blocked by its
dangling reference and ends up in the final fallback batch. -/
theorem claim2_dangling_blocks_witness :
    goodIds exDangling ∧ tBd ∈ exDangling ∧
    DepEntry.ref 99 ∈ tBd.deps ∧ (∀ u ∈ exDangling, u.id ≠ some 99) ∧
    ((build_execution_batches_fallbackW exDangling).2 = true ∧
      ∃ pre fin, build_execution_batches_fallback exDangling =
        pre ++ [fin] ∧ tBd ∈ fin) :=
  ⟨by decide, by decide, by decide, by decide,
    claim2_dangling_blocks exDangling tBd 99 (by decide) (by decide)
      (by decide) (by decide)⟩
